import Mathlib

/-!
# Verification of the contact-book assistant (task1_and_2.py)

This file gives a shallow embedding of the contact-book program in Lean 4:
the validated value types (phone, birthday), the contact record and its
mutations, the name-keyed directory, the upcoming-birthdays report, and the
command handlers with their error-translation boundary.  Machine details of
Python are made explicit: exceptions become an error type, in-place
mutation becomes explicit state passing, and the `datetime` library calls
(`strptime`, `strftime`, `date.replace`, `weekday`, `timedelta` addition)
are modelled on a plain year/month/day structure over `Nat`.
-/

/-! ## Dates (model of `datetime.date`) -/

/-- A calendar date as Python's `datetime.date` stores it: year, month, day. -/
structure PyDate where
  year : Nat
  month : Nat
  day : Nat
deriving DecidableEq, Repr

/-- Gregorian leap-year rule, as used by `datetime`. -/
def isLeap (y : Nat) : Bool :=
  y % 4 == 0 && (y % 100 != 0 || y % 400 == 0)

/-- Length of a month, as `datetime`'s `_days_in_month` table. -/
def daysInMonth (y m : Nat) : Nat :=
  if m = 2 then (if isLeap y then 29 else 28)
  else if m = 4 ∨ m = 6 ∨ m = 9 ∨ m = 11 then 30
  else if 1 ≤ m ∧ m ≤ 12 then 31
  else 0

/-- `datetime.date` ordering: lexicographic on (year, month, day). -/
def dateLt (a b : PyDate) : Bool :=
  a.year < b.year
    || (a.year == b.year
        && (a.month < b.month || (a.month == b.month && a.day < b.day)))

/-- `datetime.date` non-strict ordering. -/
def dateLe (a b : PyDate) : Bool :=
  dateLt a b || a == b

/-- Validity of a date's fields, as `datetime.date` enforces on construction
(we do not bound the year above, which only matters at year 9999). -/
def isValidDate (d : PyDate) : Bool :=
  decide (1 ≤ d.year) && decide (1 ≤ d.month) && decide (d.month ≤ 12)
    && decide (1 ≤ d.day) && decide (d.day ≤ daysInMonth d.year d.month)

/-- `date.replace(year=y)`: rebuilds the date with the same month and day,
re-running the constructor checks of `datetime.date` in their source order,
raising `ValueError` (here: `Except.error` with the CPython message) when a
check fails. -/
def dateReplaceYear (d : PyDate) (y : Nat) : Except String PyDate :=
  if y < 1 ∨ 9999 < y then .error ("year " ++ Nat.repr y ++ " is out of range")
  else if d.month < 1 ∨ 12 < d.month then .error "month must be in 1..12"
  else if d.day < 1 ∨ daysInMonth y d.month < d.day then
    .error "day is out of range for month"
  else .ok ⟨y, d.month, d.day⟩

/-- Days strictly before January 1 of year `y` in the proleptic Gregorian
calendar (Python's `date.toordinal` counts from 0001-01-01 = ordinal 1). -/
def daysBeforeYear (y : Nat) : Nat :=
  365 * (y - 1) + (y - 1) / 4 - (y - 1) / 100 + (y - 1) / 400

/-- Days in year `y` strictly before month `m` (for `m` in 1..12). -/
def daysBeforeMonth (y m : Nat) : Nat :=
  (if m = 1 then 0 else if m = 2 then 31 else if m = 3 then 59
   else if m = 4 then 90 else if m = 5 then 120 else if m = 6 then 151
   else if m = 7 then 181 else if m = 8 then 212 else if m = 9 then 243
   else if m = 10 then 273 else if m = 11 then 304 else if m = 12 then 334
   else 0)
  + (if 3 ≤ m ∧ isLeap y then 1 else 0)

/-- Python's `date.toordinal`: 0001-01-01 has ordinal 1. -/
def toOrdinal (d : PyDate) : Nat :=
  daysBeforeYear d.year + daysBeforeMonth d.year d.month + d.day

/-- Python's `date.weekday()`: Monday is 0, Sunday is 6. -/
def weekday (d : PyDate) : Nat :=
  (toOrdinal d + 6) % 7

/-- The English weekday names produced by `strftime("%A")` in the C locale,
indexed by `weekday`. -/
def dayName (w : Nat) : String :=
  match w with
  | 0 => "Monday"
  | 1 => "Tuesday"
  | 2 => "Wednesday"
  | 3 => "Thursday"
  | 4 => "Friday"
  | 5 => "Saturday"
  | _ => "Sunday"

/-- The calendar successor of a date (used to model `+ timedelta(days=n)`). -/
def nextDay (d : PyDate) : PyDate :=
  if d.day < daysInMonth d.year d.month then ⟨d.year, d.month, d.day + 1⟩
  else if d.month < 12 then ⟨d.year, d.month + 1, 1⟩
  else ⟨d.year + 1, 1, 1⟩

/-- `d + timedelta(days=n)` for a valid date `d`. -/
def addDays : Nat → PyDate → PyDate
  | 0, d => d
  | n + 1, d => addDays n (nextDay d)

/-! ## Validated value types: phone and birthday strings -/

/-- Python's `str.isdigit` restricted to ASCII decimal digits: true on a
non-empty all-digit string. -/
def str_isdigit (v : String) : Bool :=
  !v.toList.isEmpty && v.toList.all Char.isDigit

/-- `Phone.__init__`: accepts exactly the 10-character all-digit strings,
raising `ValueError("Phone must contain exactly 10 digits.")` otherwise. -/
def mkPhone (v : String) : Except String String :=
  if str_isdigit v && v.length == 10 then .ok v
  else .error "Phone must contain exactly 10 digits."

/-- Split a character list at every `'.'`, as Python's `str.split(".")`;
always returns at least one (possibly empty) part. -/
def splitDots : List Char → List (List Char)
  | [] => [[]]
  | c :: rest =>
    if c = '.' then [] :: splitDots rest
    else
      match splitDots rest with
      | [] => [[c]]
      | g :: gs => (c :: g) :: gs

/-- Rejoin the parts produced by `splitDots` with dots (its inverse). -/
def joinDots : List (List Char) → List Char
  | [] => []
  | [g] => g
  | g :: gs => g ++ '.' :: joinDots gs

/-- Numeric value of a digit string (most significant first). -/
def digitsVal (cs : List Char) : Nat :=
  cs.foldl (fun a c => 10 * a + (c.toNat - 48)) 0

/-- All characters are ASCII decimal digits. -/
def allDigits (cs : List Char) : Bool :=
  cs.all Char.isDigit

/-- The `%d` field of `strptime`: one or two digits with value 1..31
(CPython regex `3[01]|[12]\d|0[1-9]|[1-9]`). -/
def matchDayField (cs : List Char) : Bool :=
  allDigits cs && (cs.length == 1 || cs.length == 2)
    && decide (1 ≤ digitsVal cs) && decide (digitsVal cs ≤ 31)

/-- The `%m` field of `strptime`: one or two digits with value 1..12
(CPython regex `1[0-2]|0[1-9]|[1-9]`). -/
def matchMonthField (cs : List Char) : Bool :=
  allDigits cs && (cs.length == 1 || cs.length == 2)
    && decide (1 ≤ digitsVal cs) && decide (digitsVal cs ≤ 12)

/-- The `%Y` field of `strptime`: exactly four digits (CPython regex
`\d\d\d\d`). -/
def matchYearField (cs : List Char) : Bool :=
  allDigits cs && cs.length == 4

/-- `datetime.strptime(value, "%d.%m.%Y").date()`: the format string fixes
two literal dots, so the input must split at dots into exactly a day field,
a month field and a year field; the parsed numbers must then pass the
`datetime.date` constructor (real calendar date, year at least 1). -/
def birthdayParse (s : String) : Option PyDate :=
  match splitDots s.toList with
  | [d, m, y] =>
    if matchDayField d && matchMonthField m && matchYearField y then
      if decide (1 ≤ digitsVal y)
          && decide (digitsVal d ≤ daysInMonth (digitsVal y) (digitsVal m)) then
        some ⟨digitsVal y, digitsVal m, digitsVal d⟩
      else none
    else none
  | _ => none

/-- `Birthday.__init__`: any failure inside `strptime` or the date
constructor is re-raised as `ValueError("Invalid date format. Use DD.MM.YYYY")`. -/
def mkBirthday (s : String) : Except String PyDate :=
  match birthdayParse s with
  | some d => .ok d
  | none => .error "Invalid date format. Use DD.MM.YYYY"

/-- Decimal rendering of a number below 10^10, without padding (as C
`printf`-style `%d` conversion used by `strftime` for `%Y`). -/
def renderNatAux : Nat → Nat → List Char
  | 0, _ => []
  | fuel + 1, n =>
    if n < 10 then [Nat.digitChar n]
    else renderNatAux fuel (n / 10) ++ [Nat.digitChar (n % 10)]

/-- Decimal rendering of a `Nat` (years are below 10^4, so fuel 10 is ample). -/
def renderNat (n : Nat) : List Char :=
  renderNatAux 10 n

/-- `strftime`'s `%d`/`%m`: zero-padded to two characters. -/
def pad2chars (n : Nat) : List Char :=
  if n < 10 then ['0', Nat.digitChar n] else renderNat n

/-- `Birthday.__str__`, i.e. `strftime("%d.%m.%Y")`: zero-padded day and
month, unpadded year (glibc `%A`-family behaviour). -/
def renderDate (d : PyDate) : String :=
  ⟨pad2chars d.day ++ '.' :: pad2chars d.month ++ '.' :: renderNat d.year⟩

/-! ## Records and the address book -/

/-- `Record`: a name, an ordered list of validated phone strings, and an
optional birthday date. -/
structure Record where
  name : String
  phones : List String
  birthday : Option PyDate
deriving DecidableEq, Repr

/-- `AddressBook.data`: a name-keyed insertion-ordered mapping, modelled as
the list of records in insertion order (Python dicts preserve it). -/
abbrev Book := List Record

/-- `AddressBook.find` / `data.get(name)`: first (hence only) record with
the given name. -/
def findRecord : Book → String → Option Record
  | [], _ => none
  | r :: rs, n => if r.name = n then some r else findRecord rs n

/-- `data[record.name] = record`: replace the record at an existing key in
place, or append a new key at the end. -/
def addRecord : Book → Record → Book
  | [], r => [r]
  | r0 :: rs, r => if r0.name = r.name then r :: rs else r0 :: addRecord rs r

/-- `Record.edit_phone(old, new)`: scan for the first phone equal to `old`;
on a hit, validate `new` (a `ValueError` from `Phone` propagates before any
assignment) and replace that entry, reporting `true`; report `false` when
no entry matches (then `new` is never validated). -/
def edit_phone : List String → String → String → Except String (List String × Bool)
  | [], _, _ => .ok ([], false)
  | p :: ps, oldv, newv =>
    if p = oldv then
      match mkPhone newv with
      | .ok np => .ok (np :: ps, true)
      | .error e => .error e
    else
      match edit_phone ps oldv newv with
      | .ok (ps2, b) => .ok (p :: ps2, b)
      | .error e => .error e

/-! ## The upcoming-birthdays report -/

/-- The report's intermediate grouping `bucket : day_name -> [names]`,
an insertion-ordered string-keyed mapping. -/
abbrev Bucket := List (String × List String)

/-- `bucket[d]` lookup. -/
def bucketLookup : Bucket → String → Option (List String)
  | [], _ => none
  | (k, vs) :: rest, d => if k = d then some vs else bucketLookup rest d

/-- `bucket.setdefault(k, []).append(v)`: append `v` to the list at key `k`,
creating the key at the end of the mapping when absent. -/
def bucketAdd : Bucket → String → String → Bucket
  | [], k, v => [(k, [v])]
  | (k0, vs) :: rest, k, v =>
    if k0 = k then (k0, vs ++ [v]) :: rest
    else (k0, vs) :: bucketAdd rest k v

/-- Keys of a bucket, in order. -/
def bucketKeys (b : Bucket) : List String :=
  b.map Prod.fst

/-- All names stored in a bucket (concatenation of the per-key lists). -/
def bucketNames : Bucket → List String
  | [] => []
  | (_, vs) :: rest => vs ++ bucketNames rest

/-- The weekend shift applied to a congratulation day: Saturday moves
forward two days, Sunday one day (both to Monday). -/
def shiftWeekend (d : PyDate) : PyDate :=
  if weekday d == 5 then addDays 2 d
  else if weekday d == 6 then addDays 1 d
  else d

/-- Python's string `<`: lexicographic comparison of the code-point
sequences. -/
def charListLt : List Char → List Char → Bool
  | [], [] => false
  | [], _ :: _ => true
  | _ :: _, [] => false
  | c1 :: t1, c2 :: t2 =>
    if c1.toNat < c2.toNat then true
    else if c2.toNat < c1.toNat then false
    else charListLt t1 t2

/-- Python's string `<=` used by `sorted`. -/
def pyStrLe (a b : String) : Bool :=
  !(charListLt b.toList a.toList)

/-- Insert a string into an ascending list (stable: placed before equal
entries, as Python's stable sort would keep equal strings — which are
identical — in place). -/
def insertSorted (x : String) : List String → List String
  | [] => [x]
  | y :: ys => if pyStrLe x y then x :: y :: ys else y :: insertSorted x ys

/-- Python's `sorted` on a list of strings: ascending, case-sensitive,
comparing code points lexicographically. -/
def sortStrings : List String → List String
  | [] => []
  | x :: xs => insertSorted x (sortStrings xs)

/-- The body of the `for record in self.data.values()` loop of
`get_upcoming_birthdays`: skip records without a birthday; move the
birthday to `today`'s year (a `ValueError` from `replace` propagates); if
that occurrence has passed, move it to the next year instead; when the
occurrence lies in `[today, today + 7 days]`, shift weekend congratulation
days to Monday and file the record's name under the weekday name. -/
def recordStep (today : PyDate) (bkt : Bucket) (r : Record) : Except String Bucket :=
  match r.birthday with
  | none => .ok bkt
  | some bday =>
    match dateReplaceYear bday today.year with
    | .error e => .error e
    | .ok bty0 =>
      match (if dateLt bty0 today then dateReplaceYear bday (today.year + 1) else .ok bty0) with
      | .error e => .error e
      | .ok bty =>
        if dateLe today bty && dateLe bty (addDays 7 today) then
          .ok (bucketAdd bkt (dayName (weekday (shiftWeekend bty))) r.name)
        else .ok bkt

/-- The whole record loop of `get_upcoming_birthdays`, threading the bucket. -/
def collect (today : PyDate) : List Record → Bucket → Except String Bucket
  | [], bkt => .ok bkt
  | r :: rs, bkt =>
    match recordStep today bkt r with
    | .error e => .error e
    | .ok bkt2 => collect today rs bkt2

/-- The seven weekday names scanned by the output loop:
`(today + timedelta(days=i)).strftime("%A")` for `i` in `range(7)`. -/
def sevenNames (today : PyDate) : List String :=
  (List.range 7).map (fun i => dayName (weekday (addDays i today)))

/-- The output loop of `get_upcoming_birthdays`: for each of the seven
weekday names starting from today, emit `{d: sorted(bucket[d])}` when the
bucket has the key. -/
def orderedOut (bkt : Bucket) : List String → List (String × List String)
  | [] => []
  | d :: ds =>
    match bucketLookup bkt d with
    | some ns => (d, sortStrings ns) :: orderedOut bkt ds
    | none => orderedOut bkt ds

/-- `AddressBook.get_upcoming_birthdays`, with `date.today()` made an
explicit parameter. -/
def get_upcoming_birthdays (today : PyDate) (book : Book) :
    Except String (List (String × List String)) :=
  match collect today book [] with
  | .error e => .error e
  | .ok bkt => .ok (orderedOut bkt (sevenNames today))

/-! ## Command handlers and the error-translation boundary -/

/-- The Python exception kinds distinguished by the `input_error` decorator. -/
inductive PyErr where
  | valueError (msg : String)
  | keyError
  | indexError
deriving DecidableEq, Repr

/-- A handler's pre-decorator outcome: either a returned string or a raised
exception, together with the book state at that moment (mutations made
before a raise stay visible). -/
abbrev HResult := Except PyErr String × Book

/-- The `input_error` decorator: `ValueError` shows its own message when it
has one and a generic message otherwise; `KeyError` and `IndexError` map to
fixed messages. -/
def input_error_msg (e : PyErr) : String :=
  match e with
  | .valueError m => if m = "" then "Invalid arguments. Check command syntax." else m
  | .keyError => "Contact not found."
  | .indexError => "Enter the argument for the command."

/-- Run a raw handler under the `input_error` boundary: exceptions become
display strings, the book state is whatever the handler left behind. -/
def runHandler (res : HResult) : String × Book :=
  match res with
  | (.ok s, b) => (s, b)
  | (.error e, b) => (input_error_msg e, b)

/-- `add_contact` before the decorator.  `name, phone, *_ = args` raises
`ValueError` with CPython's unpack message on fewer than two arguments.
A missing record is created and inserted before the phone is validated, so
a bad phone leaves the fresh record behind. -/
def add_contact_raw (args : List String) (book : Book) : HResult :=
  match args with
  | [] => (.error (.valueError "not enough values to unpack (expected at least 2, got 0)"), book)
  | [_] => (.error (.valueError "not enough values to unpack (expected at least 2, got 1)"), book)
  | name :: phone :: _ =>
    match findRecord book name with
    | some r =>
      if phone = "" then (.ok "Contact updated.", book)
      else
        match mkPhone phone with
        | .ok p => (.ok "Contact updated.", addRecord book { r with phones := r.phones ++ [p] })
        | .error m => (.error (.valueError m), book)
    | none =>
      let book2 := addRecord book ⟨name, [], none⟩
      if phone = "" then (.ok "Contact added.", book2)
      else
        match mkPhone phone with
        | .ok p => (.ok "Contact added.", addRecord book2 ⟨name, [p], none⟩)
        | .error m => (.error (.valueError m), book2)

/-- `cmd_change` before the decorator.  `name, old, new = args` raises
`ValueError` with CPython's unpack message unless exactly three arguments
are given; a missing record raises `KeyError`; a validation error inside
`edit_phone` propagates with the book unchanged. -/
def cmd_change_raw (args : List String) (book : Book) : HResult :=
  match args with
  | [] => (.error (.valueError "not enough values to unpack (expected 3, got 0)"), book)
  | [_] => (.error (.valueError "not enough values to unpack (expected 3, got 1)"), book)
  | [_, _] => (.error (.valueError "not enough values to unpack (expected 3, got 2)"), book)
  | [name, oldp, newp] =>
    (match findRecord book name with
     | none => (.error .keyError, book)
     | some r =>
       match edit_phone r.phones oldp newp with
       | .error m => (.error (.valueError m), book)
       | .ok (ps, found) =>
         if found then (.ok "Contact updated.", addRecord book { r with phones := ps })
         else (.ok "Phone not found for this contact.", addRecord book { r with phones := ps }))
  | _ => (.error (.valueError "too many values to unpack (expected 3)"), book)

/-- `cmd_phone` before the decorator: `args[0]` raises `IndexError` on an
empty argument list; a missing record raises `KeyError`. -/
def cmd_phone_raw (args : List String) (book : Book) : HResult :=
  match args with
  | [] => (.error .indexError, book)
  | name :: _ =>
    match findRecord book name with
    | none => (.error .keyError, book)
    | some r =>
      (.ok (if r.phones = [] then "No phones saved."
            else String.intercalate "; " r.phones), book)

/-- `Record.__str__`. -/
def renderRecord (r : Record) : String :=
  "Contact name: " ++ r.name ++ ", phones: "
    ++ (if r.phones = [] then "—" else String.intercalate "; " r.phones)
    ++ ", birthday: "
    ++ (match r.birthday with
        | some b => renderDate b
        | none => "—")

/-- `cmd_all` before the decorator. -/
def cmd_all_raw (_args : List String) (book : Book) : HResult :=
  if book = [] then (.ok "No contacts saved.", book)
  else (.ok (String.intercalate "\n" (book.map renderRecord)), book)

/-- `add_birthday` before the decorator: creates a missing record before
validating the date, so a bad date leaves the fresh record behind. -/
def add_birthday_raw (args : List String) (book : Book) : HResult :=
  match args with
  | [] => (.error (.valueError "not enough values to unpack (expected at least 2, got 0)"), book)
  | [_] => (.error (.valueError "not enough values to unpack (expected at least 2, got 1)"), book)
  | name :: bs :: _ =>
    match findRecord book name with
    | some r =>
      match mkBirthday bs with
      | .ok d => (.ok "Birthday set.", addRecord book { r with birthday := some d })
      | .error m => (.error (.valueError m), book)
    | none =>
      let book2 := addRecord book ⟨name, [], none⟩
      match mkBirthday bs with
      | .ok d => (.ok "Birthday set.", addRecord book2 ⟨name, [], some d⟩)
      | .error m => (.error (.valueError m), book2)

/-- `show_birthday` before the decorator. -/
def show_birthday_raw (args : List String) (book : Book) : HResult :=
  match args with
  | [] => (.error .indexError, book)
  | name :: _ =>
    match findRecord book name with
    | none => (.error .keyError, book)
    | some r =>
      (.ok (match r.birthday with
            | some b => renderDate b
            | none => "No birthday saved."), book)

/-- `birthdays` before the decorator: a `ValueError` escaping
`get_upcoming_birthdays` (leap-day replacement) propagates to the boundary. -/
def birthdays_raw (today : PyDate) (_args : List String) (book : Book) : HResult :=
  match get_upcoming_birthdays today book with
  | .error m => (.error (.valueError m), book)
  | .ok [] => (.ok "No upcoming birthdays within the next 7 days.", book)
  | .ok items =>
    (.ok (String.intercalate "\n"
            (items.map (fun it => it.1 ++ ": " ++ String.intercalate ", " it.2))), book)

/-- The decorated `add_contact`. -/
def add_contact (args : List String) (book : Book) : String × Book :=
  runHandler (add_contact_raw args book)

/-- The decorated `cmd_change`. -/
def cmd_change (args : List String) (book : Book) : String × Book :=
  runHandler (cmd_change_raw args book)

/-- The decorated `cmd_phone`. -/
def cmd_phone (args : List String) (book : Book) : String × Book :=
  runHandler (cmd_phone_raw args book)

/-- The decorated `cmd_all`. -/
def cmd_all (args : List String) (book : Book) : String × Book :=
  runHandler (cmd_all_raw args book)

/-- The decorated `add_birthday`. -/
def add_birthday (args : List String) (book : Book) : String × Book :=
  runHandler (add_birthday_raw args book)

/-- The decorated `show_birthday`. -/
def show_birthday (args : List String) (book : Book) : String × Book :=
  runHandler (show_birthday_raw args book)

/-- The decorated `birthdays`. -/
def birthdays (today : PyDate) (args : List String) (book : Book) : String × Book :=
  runHandler (birthdays_raw today args book)

/-! ## Specification-side definitions (phrased from the claims) -/

/-- Claim wording: the birthday's occurrence in today's year, rolled to next
year's occurrence when the this-year occurrence is strictly before today. -/
def specOccurrence (today bday : PyDate) : PyDate :=
  if dateLt ⟨today.year, bday.month, bday.day⟩ today
  then ⟨today.year + 1, bday.month, bday.day⟩
  else ⟨today.year, bday.month, bday.day⟩

/-- Claim wording: the occurrence `X` satisfies `today <= X <= today + 7 days`. -/
def specInWindow (today bday : PyDate) : Bool :=
  dateLe today (specOccurrence today bday)
    && dateLe (specOccurrence today bday) (addDays 7 today)

/-- The names of the records that the claim says must appear in the report:
records with a birthday whose occurrence lies in the 8-day closed window. -/
def windowNames (today : PyDate) : List Record → List String
  | [] => []
  | r :: rs =>
    match r.birthday with
    | none => windowNames today rs
    | some b =>
      if specInWindow today b then r.name :: windowNames today rs
      else windowNames today rs

/-- The weekday name a record's congratulation is filed under, according to
the claim: the occurrence's weekday, weekend-shifted to Monday. -/
def congratsName (today bday : PyDate) : String :=
  dayName (weekday (shiftWeekend (specOccurrence today bday)))

/-- Claim wording (C4): a string strictly matching zero-padded `DD.MM.YYYY`
denoting a real calendar date. -/
def specStrictDDMMYYYY (s : String) : Bool :=
  match splitDots s.toList with
  | [d, m, y] =>
    allDigits d && d.length == 2 && allDigits m && m.length == 2
      && allDigits y && y.length == 4
      && isValidDate ⟨digitsVal y, digitsVal m, digitsVal d⟩
  | _ => false

/-- Amended claim wording (C4): day and month of one or two digits, year of
exactly four digits, separated by dots, denoting a real calendar date. -/
def specLaxDate (s : String) : Bool :=
  match splitDots s.toList with
  | [d, m, y] =>
    allDigits d && (d.length == 1 || d.length == 2)
      && allDigits m && (m.length == 1 || m.length == 2)
      && allDigits y && y.length == 4
      && isValidDate ⟨digitsVal y, digitsVal m, digitsVal d⟩
  | _ => false

/-- Claim wording (C6): the first entry equal to `old` replaced by `new`. -/
def specReplaceFirst : List String → String → String → List String
  | [], _, _ => []
  | p :: ps, oldv, newv =>
    if p = oldv then newv :: ps else p :: specReplaceFirst ps oldv newv

/-! ## Helper lemmas -/

theorem runHandler_snd (res : HResult) : (runHandler res).2 = res.2 := by
  rcases res with ⟨e | s, b⟩ <;> rfl

theorem mkPhone_error_msg (v : String) (e : String) (h : mkPhone v = .error e) :
    e = "Phone must contain exactly 10 digits." := by
  unfold mkPhone at h
  split at h
  · cases h
  · cases h; rfl

theorem mkPhone_ok_eq (v w : String) (h : mkPhone v = .ok w) : w = v := by
  unfold mkPhone at h
  split at h
  · cases h; rfl
  · cases h

/-! ## Claim theorems (first batch) -/

/-- C3: `Phone` construction succeeds exactly on the strings of ten decimal
digits, and fails with the validation error on every other string. -/
theorem phone_validation_iff (s : String) :
    (mkPhone s = .ok s ↔ (s.length = 10 ∧ s.toList.all Char.isDigit = true))
    ∧ (mkPhone s = .error "Phone must contain exactly 10 digits."
        ↔ ¬(s.length = 10 ∧ s.toList.all Char.isDigit = true)) := by
  have hlen : s.length = s.toList.length := rfl
  have key : (str_isdigit s && s.length == 10) = true
      ↔ (s.length = 10 ∧ s.toList.all Char.isDigit = true) := by
    rw [hlen]
    unfold str_isdigit
    cases hl : s.toList with
    | nil => simp
    | cons c cs =>
      simp only [hl, List.isEmpty_cons, Bool.not_false, Bool.true_and,
        Bool.and_eq_true, beq_iff_eq]
      exact and_comm
  unfold mkPhone
  by_cases h : s.length = 10 ∧ s.toList.all Char.isDigit = true
  · rw [if_pos (key.mpr h)]
    constructor
    · exact iff_of_true rfl h
    · exact iff_of_false (by simp) (not_not_intro h)
  · have hc : (str_isdigit s && s.length == 10) = false := by
      cases hcv : (str_isdigit s && s.length == 10)
      · rfl
      · exact absurd (key.mp hcv) h
    rw [hc]
    constructor
    · exact iff_of_false (by simp) h
    · exact iff_of_true rfl h

/-- C7: `edit_phone` on a phone list without the old number reports `false`
and leaves the list exactly as it was. -/
theorem edit_phone_not_found_unchanged (phones : List String) (oldv newv : String)
    (h : oldv ∉ phones) :
    edit_phone phones oldv newv = .ok (phones, false) := by
  induction phones with
  | nil => rfl
  | cons p ps ih =>
    have hne : ¬p = oldv := fun he => h (he ▸ List.mem_cons_self p ps)
    have hmem : oldv ∉ ps := fun hm => h (List.mem_cons_of_mem _ hm)
    simp only [edit_phone, if_neg hne, ih hmem]

theorem edit_phone_not_found_unchanged_witness :
    edit_phone ["1234567890"] "0000000000" "x" = .ok (["1234567890"], false) :=
  edit_phone_not_found_unchanged ["1234567890"] "0000000000" "x" (by decide)

/-- C6: when the old number occurs in the list, `edit_phone` validates the
new number; a validation failure propagates unchanged (and the handler
`cmd_change` then leaves the book exactly as it was — atomicity on error),
while a valid new number replaces the first matching entry in place and the
call reports `true`. -/
theorem edit_phone_found_validates_and_replaces (phones : List String) (oldv newv : String)
    (h : oldv ∈ phones) :
    (∀ e, mkPhone newv = .error e → edit_phone phones oldv newv = .error e)
    ∧ (mkPhone newv = .ok newv →
        edit_phone phones oldv newv = .ok (specReplaceFirst phones oldv newv, true))
    ∧ (∀ e, mkPhone newv = .error e →
        ∀ (book : Book) (name : String) (r : Record),
          findRecord book name = some r → r.phones = phones →
          cmd_change [name, oldv, newv] book = (e, book)) := by
  have main : (∀ e, mkPhone newv = .error e → edit_phone phones oldv newv = .error e)
      ∧ (mkPhone newv = .ok newv →
          edit_phone phones oldv newv = .ok (specReplaceFirst phones oldv newv, true)) := by
    induction phones with
    | nil => cases h
    | cons p ps ih =>
      by_cases hp : p = oldv
      · subst hp
        constructor
        · intro e he
          simp [edit_phone, he]
        · intro hok
          simp [edit_phone, specReplaceFirst, hok]
      · have hmem : oldv ∈ ps := by
          rcases List.mem_cons.mp h with h1 | h1
          · exact absurd h1.symm hp
          · exact h1
        constructor
        · intro e he
          simp [edit_phone, hp, (ih hmem).1 e he]
        · intro hok
          simp [edit_phone, specReplaceFirst, hp, (ih hmem).2 hok]
  refine ⟨main.1, main.2, ?_⟩
  intro e he book name r hfind hph
  have herr : edit_phone r.phones oldv newv = .error e := hph ▸ main.1 e he
  have hmsg := mkPhone_error_msg newv e he
  have hraw : cmd_change_raw [name, oldv, newv] book = (.error (.valueError e), book) := by
    simp [cmd_change_raw, hfind, herr]
  rw [cmd_change, hraw]
  subst hmsg
  rfl

theorem edit_phone_found_validates_and_replaces_witness :
    edit_phone ["1234567890"] "1234567890" "123" = .error "Phone must contain exactly 10 digits."
    ∧ edit_phone ["5550001111", "1234567890"] "1234567890" "0987654321"
        = .ok (["5550001111", "0987654321"], true)
    ∧ cmd_change ["Alice", "1234567890", "123"] [⟨"Alice", ["1234567890"], none⟩]
        = ("Phone must contain exactly 10 digits.", [⟨"Alice", ["1234567890"], none⟩]) := by
  refine ⟨?_, ?_, ?_⟩
  · exact (edit_phone_found_validates_and_replaces ["1234567890"] "1234567890" "123"
      (by decide)).1 _ rfl
  · exact (edit_phone_found_validates_and_replaces ["5550001111", "1234567890"] "1234567890"
      "0987654321" (by decide)).2.1 rfl
  · exact (edit_phone_found_validates_and_replaces ["1234567890"] "1234567890" "123"
      (by decide)).2.2 _ rfl [⟨"Alice", ["1234567890"], none⟩] "Alice" _ rfl rfl

/-- C9: the query handlers `phone`, `all`, `show-birthday` and `birthdays`
return the book exactly as they received it, for every argument list and
book state. -/
theorem query_handlers_preserve_book (args : List String) (book : Book) (today : PyDate) :
    (cmd_phone args book).2 = book ∧ (cmd_all args book).2 = book
    ∧ (show_birthday args book).2 = book ∧ (birthdays today args book).2 = book := by
  refine ⟨?_, ?_, ?_, ?_⟩
  · rw [cmd_phone, runHandler_snd]
    rcases args with _ | ⟨n, rest⟩
    · rfl
    · cases hf : findRecord book n <;> simp [cmd_phone_raw, hf]
  · rw [cmd_all, runHandler_snd]
    unfold cmd_all_raw
    split <;> rfl
  · rw [show_birthday, runHandler_snd]
    rcases args with _ | ⟨n, rest⟩
    · rfl
    · cases hf : findRecord book n <;> simp [show_birthday_raw, hf]
  · rw [birthdays, runHandler_snd]
    cases hg : get_upcoming_birthdays today book with
    | error e => simp [birthdays_raw, hg]
    | ok l => cases l <;> simp [birthdays_raw, hg]

/-- C8 counterexample: `add` invoked with no arguments does not produce
"Enter the argument for the command." — tuple unpacking raises a
`ValueError` whose own message is shown instead. -/
theorem missing_args_unpack_message_cex :
    (add_contact [] []).1 = "not enough values to unpack (expected at least 2, got 0)"
    ∧ (add_contact [] []).1 ≠ "Enter the argument for the command." := by
  constructor
  · rfl
  · decide

/-- C8 as amended: only the handlers that index `args` (`phone`,
`show-birthday`) answer "Enter the argument for the command." on missing
arguments; the unpacking handlers (`add`, `change`, `add-birthday`) surface
CPython's unpack `ValueError` text; a `ValueError` carrying a message
surfaces that message and only an empty-message `ValueError` yields the
generic "Invalid arguments. Check command syntax."; every handler returns a
display string rather than raising. -/
theorem handler_error_translation (book : Book) :
    (cmd_phone [] book).1 = "Enter the argument for the command."
    ∧ (show_birthday [] book).1 = "Enter the argument for the command."
    ∧ (add_contact [] book).1 = "not enough values to unpack (expected at least 2, got 0)"
    ∧ (add_contact ["A"] book).1 = "not enough values to unpack (expected at least 2, got 1)"
    ∧ (add_birthday [] book).1 = "not enough values to unpack (expected at least 2, got 0)"
    ∧ (cmd_change [] book).1 = "not enough values to unpack (expected 3, got 0)"
    ∧ (cmd_change ["A"] book).1 = "not enough values to unpack (expected 3, got 1)"
    ∧ (cmd_change ["A", "B"] book).1 = "not enough values to unpack (expected 3, got 2)"
    ∧ (cmd_change ["A", "B", "C", "D"] book).1 = "too many values to unpack (expected 3)"
    ∧ (∀ m, m ≠ "" → input_error_msg (.valueError m) = m)
    ∧ input_error_msg (.valueError "") = "Invalid arguments. Check command syntax."
    ∧ input_error_msg .keyError = "Contact not found." := by
  refine ⟨rfl, rfl, rfl, rfl, rfl, rfl, rfl, rfl, rfl, ?_, rfl, rfl⟩
  intro m hm
  simp [input_error_msg, hm]

/-- C4 counterexample: `Birthday` accepts `"1.01.2020"`, which does not
strictly match the zero-padded `DD.MM.YYYY` pattern, so construction does
not succeed *exactly* on the strictly matching strings. -/
theorem birthday_accepts_nonpadded_cex :
    mkBirthday "1.01.2020" = .ok ⟨2020, 1, 1⟩
    ∧ specStrictDDMMYYYY "1.01.2020" = false := by
  constructor
  · rfl
  · rfl

/-! ## Calendar arithmetic lemmas -/

theorem isLeap_spec (y : Nat) : isLeap y = true ↔ (y % 4 = 0 ∧ (y % 100 ≠ 0 ∨ y % 400 = 0)) := by
  simp [isLeap]

theorem isLeap_succ_false (y : Nat) (h : isLeap y = true) : isLeap (y + 1) = false := by
  rw [isLeap_spec] at h
  cases hc : isLeap (y + 1)
  · rfl
  · rw [isLeap_spec] at hc
    omega

theorem daysBeforeYear_succ (y : Nat) (hy : 1 ≤ y) :
    daysBeforeYear (y + 1) = daysBeforeYear y + (if isLeap y then 366 else 365) := by
  have e1 : y + 1 - 1 = y := by omega
  have h4 : y / 4 = (y - 1) / 4 + (if y % 4 = 0 then 1 else 0) := by
    split_ifs <;> omega
  have h100 : y / 100 = (y - 1) / 100 + (if y % 100 = 0 then 1 else 0) := by
    split_ifs <;> omega
  have h400 : y / 400 = (y - 1) / 400 + (if y % 400 = 0 then 1 else 0) := by
    split_ifs <;> omega
  unfold daysBeforeYear
  rw [e1, h4, h100, h400]
  by_cases hl : isLeap y = true
  · rw [if_pos hl]
    rw [isLeap_spec] at hl
    split_ifs <;> omega
  · rw [if_neg hl]
    rw [isLeap_spec] at hl
    split_ifs <;> omega

theorem daysInMonth_bounds (y m : Nat) (h1 : 1 ≤ m) (h2 : m ≤ 12) :
    28 ≤ daysInMonth y m ∧ daysInMonth y m ≤ 31 := by
  unfold daysInMonth
  split_ifs <;> omega

theorem weekday_lt7 (d : PyDate) : weekday d < 7 :=
  Nat.mod_lt _ (by omega)

theorem toOrdinal_nextDay (d : PyDate) (h : isValidDate d = true) :
    toOrdinal (nextDay d) = toOrdinal d + 1 := by
  obtain ⟨y, m, day⟩ := d
  simp only [isValidDate, Bool.and_eq_true, decide_eq_true_eq] at h
  obtain ⟨⟨⟨⟨hy, hm1⟩, hm2⟩, hd1⟩, hd2⟩ := h
  unfold nextDay
  dsimp only at *
  by_cases hlt : day < daysInMonth y m
  · rw [if_pos hlt]
    simp only [toOrdinal]
    omega
  · rw [if_neg hlt]
    have hde : day = daysInMonth y m := Nat.le_antisymm hd2 (Nat.not_lt.mp hlt)
    subst hde
    by_cases hm12 : m < 12
    · rw [if_pos hm12]
      unfold toOrdinal daysBeforeMonth daysInMonth
      dsimp only
      interval_cases m <;> by_cases hl : isLeap y = true <;> simp [hl] <;> omega
    · rw [if_neg hm12]
      have hm' : m = 12 := by omega
      subst hm'
      unfold toOrdinal daysBeforeMonth daysInMonth
      dsimp only
      rw [daysBeforeYear_succ y hy]
      by_cases hl : isLeap y = true <;> simp [hl] <;> omega

theorem isValidDate_nextDay (d : PyDate) (h : isValidDate d = true) :
    isValidDate (nextDay d) = true := by
  obtain ⟨y, m, day⟩ := d
  simp only [isValidDate, Bool.and_eq_true, decide_eq_true_eq] at h
  obtain ⟨⟨⟨⟨hy, hm1⟩, hm2⟩, hd1⟩, hd2⟩ := h
  unfold nextDay
  dsimp only at *
  by_cases hlt : day < daysInMonth y m
  · rw [if_pos hlt]
    simp only [isValidDate, Bool.and_eq_true, decide_eq_true_eq]
    refine ⟨⟨⟨⟨hy, hm1⟩, hm2⟩, by omega⟩, by omega⟩
  · rw [if_neg hlt]
    by_cases hm12 : m < 12
    · rw [if_pos hm12]
      have hb := daysInMonth_bounds y (m + 1) (by omega) (by omega)
      simp only [isValidDate, Bool.and_eq_true, decide_eq_true_eq]
      refine ⟨⟨⟨⟨hy, by omega⟩, by omega⟩, by omega⟩, by omega⟩
    · rw [if_neg hm12]
      have hb := daysInMonth_bounds (y + 1) 1 (by omega) (by omega)
      simp only [isValidDate, Bool.and_eq_true, decide_eq_true_eq]
      refine ⟨⟨⟨⟨by omega, by omega⟩, by omega⟩, by omega⟩, by omega⟩

theorem addDays_valid_weekday : ∀ (n : Nat) (d : PyDate), isValidDate d = true →
    isValidDate (addDays n d) = true ∧ weekday (addDays n d) = (weekday d + n) % 7 := by
  intro n
  induction n with
  | zero =>
    intro d h
    exact ⟨h, by simp [addDays, Nat.mod_eq_of_lt (weekday_lt7 d)]⟩
  | succ k ih =>
    intro d h
    have h1 := isValidDate_nextDay d h
    obtain ⟨hv, hw⟩ := ih (nextDay d) h1
    constructor
    · simpa [addDays] using hv
    · have hstep : weekday (nextDay d) = (weekday d + 1) % 7 := by
        unfold weekday
        rw [toOrdinal_nextDay d h]
        omega
      calc weekday (addDays (k + 1) d) = weekday (addDays k (nextDay d)) := by simp [addDays]
        _ = (weekday (nextDay d) + k) % 7 := hw
        _ = ((weekday d + 1) % 7 + k) % 7 := by rw [hstep]
        _ = (weekday d + (k + 1)) % 7 := by omega

theorem dayName_inj_lt : ∀ a, a < 7 → ∀ b, b < 7 → dayName a = dayName b → a = b := by
  decide

theorem exists_index_mod : ∀ a, a < 7 → ∀ b, b < 7 → ∃ i, i < 7 ∧ (a + i) % 7 = b := by
  decide

theorem sevenNames_eq (today : PyDate) (h : isValidDate today = true) :
    sevenNames today = (List.range 7).map (fun i => dayName ((weekday today + i) % 7)) := by
  unfold sevenNames
  apply List.map_congr_left
  intro i hi
  rw [(addDays_valid_weekday i today h).2]

theorem sevenNames_nodup (today : PyDate) (h : isValidDate today = true) :
    (sevenNames today).Nodup := by
  rw [sevenNames_eq today h]
  apply List.Nodup.map_on
  · intro x hx y hy hfe
    have hx7 := List.mem_range.mp hx
    have hy7 := List.mem_range.mp hy
    have := dayName_inj_lt _ (Nat.mod_lt _ (by omega)) _ (Nat.mod_lt _ (by omega)) hfe
    omega
  · exact List.nodup_range 7

theorem dayName_mem_sevenNames (today : PyDate) (h : isValidDate today = true)
    (w : Nat) (hw : w < 7) : dayName w ∈ sevenNames today := by
  rw [sevenNames_eq today h]
  obtain ⟨i, hi, hie⟩ := exists_index_mod (weekday today) (weekday_lt7 today) w hw
  exact List.mem_map.mpr ⟨i, List.mem_range.mpr hi, by rw [hie]⟩

/-! ## Sorting, bucket and report lemmas -/

theorem charLt_toNat (a b : Char) : a < b ↔ a.toNat < b.toNat := Iff.rfl

theorem charEq_of_toNat (a b : Char) (h : a.toNat = b.toNat) : a = b :=
  Char.ext (UInt32.ext h)

theorem charListLt_iff_lex : ∀ (l1 l2 : List Char),
    charListLt l1 l2 = true ↔ List.Lex (· < ·) l1 l2 := by
  intro l1
  induction l1 with
  | nil =>
    intro l2
    cases l2 with
    | nil =>
      constructor
      · intro h; cases h
      · intro h; cases h
    | cons c t => exact iff_of_true rfl List.Lex.nil
  | cons c1 t1 ih =>
    intro l2
    cases l2 with
    | nil =>
      constructor
      · intro h; cases h
      · intro h; cases h
    | cons c2 t2 =>
      unfold charListLt
      by_cases h12 : c1.toNat < c2.toNat
      · rw [if_pos h12]
        exact iff_of_true rfl (List.Lex.rel ((charLt_toNat c1 c2).mpr h12))
      · rw [if_neg h12]
        by_cases h21 : c2.toNat < c1.toNat
        · rw [if_pos h21]
          constructor
          · intro h; cases h
          · intro h
            cases h with
            | cons h2 => omega
            | rel h2 => exact absurd ((charLt_toNat c1 c2).mp h2) h12
        · rw [if_neg h21]
          have hq : c1 = c2 := charEq_of_toNat c1 c2 (by omega)
          subst hq
          constructor
          · intro h; exact List.Lex.cons ((ih t2).mp h)
          · intro h
            cases h with
            | cons h2 => exact (ih t2).mpr h2
            | rel h2 => exact absurd ((charLt_toNat c1 c1).mp h2) (by omega)

theorem pyStrLe_iff (a b : String) : pyStrLe a b = true ↔ a ≤ b := by
  unfold pyStrLe
  rw [Bool.not_eq_true']
  rw [String.le_iff_toList_le]
  rw [← not_lt]
  constructor
  · intro h hlt
    have hlex : List.Lex (· < ·) b.toList a.toList := hlt
    have hcc := (charListLt_iff_lex b.toList a.toList).mpr hlex
    rw [h] at hcc
    cases hcc
  · intro h
    cases hc : charListLt b.toList a.toList
    · rfl
    · exact absurd ((charListLt_iff_lex b.toList a.toList).mp hc) h

theorem insertSorted_perm (x : String) (l : List String) :
    List.Perm (insertSorted x l) (x :: l) := by
  induction l with
  | nil => exact List.Perm.refl _
  | cons y ys ih =>
    unfold insertSorted
    by_cases h : pyStrLe x y = true
    · rw [if_pos h]
    · rw [if_neg h]
      exact (ih.cons y).trans (List.Perm.swap x y ys)

theorem insertSorted_sorted (x : String) (l : List String)
    (h : List.Sorted (· ≤ ·) l) : List.Sorted (· ≤ ·) (insertSorted x l) := by
  induction l with
  | nil => simp [insertSorted]
  | cons y ys ih =>
    unfold insertSorted
    by_cases hxy : pyStrLe x y = true
    · rw [if_pos hxy]
      rw [List.sorted_cons]
      refine ⟨?_, h⟩
      intro b hb
      rcases List.mem_cons.mp hb with rfl | hb2
      · exact (pyStrLe_iff x b).mp hxy
      · exact le_trans ((pyStrLe_iff x y).mp hxy) ((List.sorted_cons.mp h).1 b hb2)
    · rw [if_neg hxy]
      have hyx : y ≤ x := by
        rcases le_total x y with hle | hle
        · exact absurd ((pyStrLe_iff x y).mpr hle) hxy
        · exact hle
      have hys := List.sorted_cons.mp h
      rw [List.sorted_cons]
      refine ⟨?_, ih hys.2⟩
      intro b hb
      have hbmem : b ∈ x :: ys := (insertSorted_perm x ys).subset hb
      rcases List.mem_cons.mp hbmem with rfl | hb2
      · exact hyx
      · exact hys.1 b hb2

theorem sortStrings_perm (l : List String) : List.Perm (sortStrings l) l := by
  induction l with
  | nil => exact List.Perm.refl _
  | cons x xs ih =>
    unfold sortStrings
    exact (insertSorted_perm x (sortStrings xs)).trans (ih.cons x)

theorem sortStrings_sorted (l : List String) : List.Sorted (· ≤ ·) (sortStrings l) := by
  induction l with
  | nil => simp [sortStrings]
  | cons x xs ih => exact insertSorted_sorted x (sortStrings xs) ih

theorem bucketNames_append (b1 b2 : Bucket) :
    bucketNames (b1 ++ b2) = bucketNames b1 ++ bucketNames b2 := by
  induction b1 with
  | nil => rfl
  | cons kv rest ih =>
    obtain ⟨k, vs⟩ := kv
    simp [bucketNames, ih]

theorem bucketKeys_bucketAdd_mem (b : Bucket) (k v : String) (h : k ∈ bucketKeys b) :
    bucketKeys (bucketAdd b k v) = bucketKeys b := by
  induction b with
  | nil => simp [bucketKeys] at h
  | cons kv rest ih =>
    obtain ⟨k0, vs⟩ := kv
    by_cases he : k0 = k
    · subst he
      have hred : bucketAdd ((k0, vs) :: rest) k0 v = (k0, vs ++ [v]) :: rest := by
        simp [bucketAdd]
      rw [hred]
      rfl
    · have hm : k ∈ bucketKeys rest := by
        have hc : k ∈ k0 :: bucketKeys rest := h
        rcases List.mem_cons.mp hc with h1 | h1
        · exact absurd h1.symm he
        · exact h1
      have hred : bucketAdd ((k0, vs) :: rest) k v = (k0, vs) :: bucketAdd rest k v := by
        simp [bucketAdd, he]
      rw [hred]
      show k0 :: bucketKeys (bucketAdd rest k v) = k0 :: bucketKeys rest
      rw [ih hm]

theorem bucketKeys_bucketAdd_not_mem (b : Bucket) (k v : String) (h : k ∉ bucketKeys b) :
    bucketKeys (bucketAdd b k v) = bucketKeys b ++ [k] := by
  induction b with
  | nil => rfl
  | cons kv rest ih =>
    obtain ⟨k0, vs⟩ := kv
    have hc : k ∉ k0 :: bucketKeys rest := h
    have he : ¬(k0 = k) := fun heq => hc (List.mem_cons.mpr (Or.inl heq.symm))
    have hm : k ∉ bucketKeys rest := fun hmm => hc (List.mem_cons.mpr (Or.inr hmm))
    have hred : bucketAdd ((k0, vs) :: rest) k v = (k0, vs) :: bucketAdd rest k v := by
      simp [bucketAdd, he]
    rw [hred]
    show k0 :: bucketKeys (bucketAdd rest k v) = (k0 :: bucketKeys rest) ++ [k]
    rw [ih hm]
    rfl

theorem bucketKeys_nodup_bucketAdd (b : Bucket) (k v : String)
    (h : (bucketKeys b).Nodup) : (bucketKeys (bucketAdd b k v)).Nodup := by
  by_cases hm : k ∈ bucketKeys b
  · rw [bucketKeys_bucketAdd_mem b k v hm]
    exact h
  · rw [bucketKeys_bucketAdd_not_mem b k v hm]
    exact List.Nodup.append h (List.nodup_singleton k)
      (by simpa [List.disjoint_singleton] using hm)

theorem bucketNames_bucketAdd (b : Bucket) (k v : String) :
    List.Perm (bucketNames (bucketAdd b k v)) (v :: bucketNames b) := by
  induction b with
  | nil => exact List.Perm.refl _
  | cons kv rest ih =>
    obtain ⟨k0, vs⟩ := kv
    by_cases he : k0 = k
    · subst he
      have hred : bucketAdd ((k0, vs) :: rest) k0 v = (k0, vs ++ [v]) :: rest := by
        simp [bucketAdd]
      rw [hred]
      show List.Perm ((vs ++ [v]) ++ bucketNames rest) (v :: (vs ++ bucketNames rest))
      have hassoc : (vs ++ [v]) ++ bucketNames rest = vs ++ v :: bucketNames rest := by
        simp
      rw [hassoc]
      exact List.perm_middle
    · have hred : bucketAdd ((k0, vs) :: rest) k v = (k0, vs) :: bucketAdd rest k v := by
        simp [bucketAdd, he]
      rw [hred]
      show List.Perm (vs ++ bucketNames (bucketAdd rest k v)) (v :: (vs ++ bucketNames rest))
      exact (ih.append_left vs).trans List.perm_middle

theorem bucketAdd_vals_ne_nil (b : Bucket) (k v : String)
    (h : ∀ p ∈ b, p.2 ≠ []) : ∀ p ∈ bucketAdd b k v, p.2 ≠ [] := by
  induction b with
  | nil =>
    intro p hp
    simp only [bucketAdd, List.mem_singleton] at hp
    subst hp
    simp
  | cons kv rest ih =>
    obtain ⟨k0, vs⟩ := kv
    by_cases he : k0 = k
    · subst he
      intro p hp
      have hred : bucketAdd ((k0, vs) :: rest) k0 v = (k0, vs ++ [v]) :: rest := by
        simp [bucketAdd]
      rw [hred] at hp
      rcases List.mem_cons.mp hp with rfl | hp2
      · simp
      · exact h p (List.mem_cons_of_mem _ hp2)
    · intro p hp
      have hred : bucketAdd ((k0, vs) :: rest) k v = (k0, vs) :: bucketAdd rest k v := by
        simp [bucketAdd, he]
      rw [hred] at hp
      rcases List.mem_cons.mp hp with rfl | hp2
      · exact h (k0, vs) (List.mem_cons_self _ _)
      · exact ih (fun q hq => h q (List.mem_cons_of_mem _ hq)) p hp2

theorem bucketLookup_none_iff (b : Bucket) (d : String) :
    bucketLookup b d = none ↔ d ∉ bucketKeys b := by
  induction b with
  | nil => simp [bucketLookup, bucketKeys]
  | cons kv rest ih =>
    obtain ⟨k0, vs⟩ := kv
    by_cases he : k0 = d
    · subst he
      simp [bucketLookup, bucketKeys]
    · simp only [bucketLookup, if_neg he, ih]
      constructor
      · intro hnm hmem
        have hc : d ∈ k0 :: bucketKeys rest := hmem
        rcases List.mem_cons.mp hc with h1 | h1
        · exact he h1.symm
        · exact hnm h1
      · intro hnm hmem
        exact hnm (List.mem_cons.mpr (Or.inr hmem))

theorem bucketLookup_mem (b : Bucket) (d : String) (ns : List String)
    (h : bucketLookup b d = some ns) : (d, ns) ∈ b := by
  induction b with
  | nil => cases h
  | cons kv rest ih =>
    obtain ⟨k0, vs⟩ := kv
    by_cases he : k0 = d
    · subst he
      simp only [bucketLookup, if_true, eq_self_iff_true, if_pos, Option.some.injEq] at h
      have : vs = ns := by simpa using h
      subst this
      exact List.mem_cons_self _ _
    · simp only [bucketLookup, if_neg he] at h
      exact List.mem_cons_of_mem _ (ih h)

/-! ## Per-record and loop analysis of `get_upcoming_birthdays` -/

theorem dateReplaceYear_ok (d : PyDate) (y : Nat) (d' : PyDate)
    (h : dateReplaceYear d y = .ok d') :
    d' = ⟨y, d.month, d.day⟩ ∧ isValidDate d' = true := by
  unfold dateReplaceYear at h
  split_ifs at h with h1 h2 h3
  all_goals cases h
  refine ⟨rfl, ?_⟩
  simp only [isValidDate, Bool.and_eq_true, decide_eq_true_eq]
  refine ⟨⟨⟨⟨by omega, by omega⟩, by omega⟩, by omega⟩, by omega⟩

theorem recordStep_ok_cases (today : PyDate) (bkt : Bucket) (r : Record) (bkt2 : Bucket)
    (h : recordStep today bkt r = .ok bkt2) :
    (bkt2 = bkt ∧ (r.birthday = none
        ∨ ∃ b, r.birthday = some b ∧ specInWindow today b = false))
    ∨ (∃ b, r.birthday = some b ∧ specInWindow today b = true
        ∧ isValidDate (specOccurrence today b) = true
        ∧ bkt2 = bucketAdd bkt (congratsName today b) r.name) := by
  unfold recordStep at h
  cases hb : r.birthday with
  | none =>
    rw [hb] at h
    dsimp only at h
    cases h
    exact .inl ⟨rfl, .inl rfl⟩
  | some b =>
    rw [hb] at h
    dsimp only at h
    cases h1 : dateReplaceYear b today.year with
    | error e => rw [h1] at h; dsimp only at h; cases h
    | ok bty0 =>
      rw [h1] at h
      dsimp only at h
      obtain ⟨he0, hv0⟩ := dateReplaceYear_ok b today.year bty0 h1
      subst he0
      by_cases hroll : dateLt ⟨today.year, b.month, b.day⟩ today = true
      · rw [if_pos hroll] at h
        cases h2 : dateReplaceYear b (today.year + 1) with
        | error e => rw [h2] at h; dsimp only at h; cases h
        | ok bty =>
          rw [h2] at h
          dsimp only at h
          obtain ⟨he1, hv1⟩ := dateReplaceYear_ok b _ bty h2
          subst he1
          have hocc : specOccurrence today b = ⟨today.year + 1, b.month, b.day⟩ := by
            unfold specOccurrence
            rw [if_pos hroll]
          by_cases hwin : (dateLe today ⟨today.year + 1, b.month, b.day⟩
              && dateLe ⟨today.year + 1, b.month, b.day⟩ (addDays 7 today)) = true
          · rw [if_pos hwin] at h
            cases h
            right
            refine ⟨b, rfl, ?_, ?_, ?_⟩
            · unfold specInWindow
              rw [hocc]
              exact hwin
            · rw [hocc]
              exact hv1
            · unfold congratsName
              rw [hocc]
          · rw [if_neg hwin] at h
            cases h
            left
            refine ⟨rfl, .inr ⟨b, rfl, ?_⟩⟩
            unfold specInWindow
            rw [hocc]
            cases hx : (dateLe today ⟨today.year + 1, b.month, b.day⟩
                && dateLe ⟨today.year + 1, b.month, b.day⟩ (addDays 7 today))
            · rfl
            · exact absurd hx hwin
      · rw [if_neg hroll] at h
        dsimp only at h
        have hocc : specOccurrence today b = ⟨today.year, b.month, b.day⟩ := by
          unfold specOccurrence
          rw [if_neg hroll]
        by_cases hwin : (dateLe today ⟨today.year, b.month, b.day⟩
            && dateLe ⟨today.year, b.month, b.day⟩ (addDays 7 today)) = true
        · rw [if_pos hwin] at h
          cases h
          right
          refine ⟨b, rfl, ?_, ?_, ?_⟩
          · unfold specInWindow
            rw [hocc]
            exact hwin
          · rw [hocc]
            exact hv0
          · unfold congratsName
            rw [hocc]
        · rw [if_neg hwin] at h
          cases h
          left
          refine ⟨rfl, .inr ⟨b, rfl, ?_⟩⟩
          unfold specInWindow
          rw [hocc]
          cases hx : (dateLe today ⟨today.year, b.month, b.day⟩
              && dateLe ⟨today.year, b.month, b.day⟩ (addDays 7 today))
          · rfl
          · exact absurd hx hwin

theorem collect_ok_props (today : PyDate) :
    ∀ (recs : List Record) (bkt bkt2 : Bucket),
      collect today recs bkt = .ok bkt2 →
      List.Perm (bucketNames bkt2) (bucketNames bkt ++ windowNames today recs)
      ∧ ((bucketKeys bkt).Nodup → (bucketKeys bkt2).Nodup)
      ∧ ((∀ p ∈ bkt, p.2 ≠ []) → ∀ p ∈ bkt2, p.2 ≠ [])
      ∧ (∀ k ∈ bucketKeys bkt2, k ∈ bucketKeys bkt ∨ ∃ w, w < 7 ∧ k = dayName w) := by
  intro recs
  induction recs with
  | nil =>
    intro bkt bkt2 h
    cases h
    refine ⟨by simp [windowNames], fun hn => hn, fun hp => hp, fun k hk => .inl hk⟩
  | cons r rs ih =>
    intro bkt bkt2 h
    unfold collect at h
    cases hstep : recordStep today bkt r with
    | error e => rw [hstep] at h; cases h
    | ok bktm =>
      rw [hstep] at h
      obtain ⟨hperm, hnd, hne, hcov⟩ := ih bktm bkt2 h
      rcases recordStep_ok_cases today bkt r bktm hstep with ⟨heq, hskip⟩ | ⟨b, hb, hwt, hvo, heq⟩
      · subst heq
        have hwn : windowNames today (r :: rs) = windowNames today rs := by
          rcases hskip with hnone | ⟨b, hb, hbf⟩
          · simp [windowNames, hnone]
          · simp [windowNames, hb, hbf]
        rw [hwn]
        exact ⟨hperm, hnd, hne, hcov⟩
      · subst heq
        have hwn : windowNames today (r :: rs) = r.name :: windowNames today rs := by
          simp [windowNames, hb, hwt]
        rw [hwn]
        refine ⟨?_, ?_, ?_, ?_⟩
        · have step1 : List.Perm (bucketNames (bucketAdd bkt (congratsName today b) r.name)
              ++ windowNames today rs) ((r.name :: bucketNames bkt) ++ windowNames today rs) :=
            (bucketNames_bucketAdd bkt (congratsName today b) r.name).append_right _
          have step2 : List.Perm ((r.name :: bucketNames bkt) ++ windowNames today rs)
              (bucketNames bkt ++ r.name :: windowNames today rs) := List.perm_middle.symm
          exact hperm.trans (step1.trans step2)
        · intro hstart
          exact hnd (bucketKeys_nodup_bucketAdd _ _ _ hstart)
        · intro hstart
          exact hne (bucketAdd_vals_ne_nil _ _ _ hstart)
        · intro k hk
          rcases hcov k hk with hkm | hw
          · by_cases hmem : congratsName today b ∈ bucketKeys bkt
            · rw [bucketKeys_bucketAdd_mem _ _ _ hmem] at hkm
              exact .inl hkm
            · rw [bucketKeys_bucketAdd_not_mem _ _ _ hmem] at hkm
              rcases List.mem_append.mp hkm with hkm | hkm
              · exact .inl hkm
              · have hkc : k = congratsName today b := by simpa using hkm
                exact .inr ⟨weekday (shiftWeekend (specOccurrence today b)), weekday_lt7 _,
                  by rw [hkc]; rfl⟩
          · exact .inr hw

/-! ## Output-loop lemmas -/

theorem orderedOut_nil_bucket (ds : List String) : orderedOut [] ds = [] := by
  induction ds with
  | nil => rfl
  | cons d ds ih => simp [orderedOut, bucketLookup, ih]

theorem orderedOut_append (bkt : Bucket) (ds1 ds2 : List String) :
    orderedOut bkt (ds1 ++ ds2) = orderedOut bkt ds1 ++ orderedOut bkt ds2 := by
  induction ds1 with
  | nil => rfl
  | cons d ds ih =>
    simp only [List.cons_append, orderedOut]
    cases bucketLookup bkt d <;> simp [ih]

theorem orderedOut_skip_head (k : String) (vs : List String) (rest : Bucket)
    (ds : List String) (h : ∀ d ∈ ds, d ≠ k) :
    orderedOut ((k, vs) :: rest) ds = orderedOut rest ds := by
  induction ds with
  | nil => rfl
  | cons d ds ih =>
    have hd : d ≠ k := h d (List.mem_cons_self _ _)
    have hk : ¬(k = d) := fun he => hd he.symm
    simp only [orderedOut, bucketLookup, if_neg hk]
    cases bucketLookup rest d <;> simp [ih (fun x hx => h x (List.mem_cons_of_mem _ hx))]

theorem orderedOut_names_perm :
    ∀ (bkt : Bucket) (ds : List String), ds.Nodup →
      (bucketKeys bkt).Nodup → (∀ k ∈ bucketKeys bkt, k ∈ ds) →
      List.Perm (bucketNames (orderedOut bkt ds)) (bucketNames bkt) := by
  intro bkt
  induction bkt with
  | nil =>
    intro ds _ _ _
    rw [orderedOut_nil_bucket]
  | cons kv rest ih =>
    obtain ⟨k, vs⟩ := kv
    intro ds hds hnk hsub
    have hkds : k ∈ ds := hsub k (List.mem_cons_self _ _)
    obtain ⟨ds1, ds2, rfl⟩ := List.append_of_mem hkds
    have hnd' : (k :: (ds1 ++ ds2)).Nodup := List.nodup_middle.mp hds
    have hk12 : k ∉ ds1 ∧ k ∉ ds2 := by
      have h1 := (List.nodup_cons.mp hnd').1
      simp only [List.mem_append] at h1
      exact ⟨fun hc => h1 (Or.inl hc), fun hc => h1 (Or.inr hc)⟩
    have hnkr : (bucketKeys rest).Nodup ∧ k ∉ bucketKeys rest := by
      have hc : (k :: bucketKeys rest).Nodup := hnk
      exact ⟨(List.nodup_cons.mp hc).2, (List.nodup_cons.mp hc).1⟩
    rw [orderedOut_append]
    have hhead : orderedOut ((k, vs) :: rest) (k :: ds2)
        = (k, sortStrings vs) :: orderedOut ((k, vs) :: rest) ds2 := by
      simp [orderedOut, bucketLookup]
    rw [hhead]
    rw [orderedOut_skip_head k vs rest ds1 (fun d hd => by rintro rfl; exact hk12.1 hd)]
    rw [orderedOut_skip_head k vs rest ds2 (fun d hd => by rintro rfl; exact hk12.2 hd)]
    have hsubr : ∀ k' ∈ bucketKeys rest, k' ∈ ds1 ++ k :: ds2 := by
      intro k' hk'
      exact hsub k' (List.mem_cons_of_mem _ hk')
    have ihr := ih (ds1 ++ k :: ds2) hds hnkr.1 hsubr
    rw [orderedOut_append] at ihr
    have hskipk : orderedOut rest (k :: ds2) = orderedOut rest ds2 := by
      simp only [orderedOut]
      rw [(bucketLookup_none_iff rest k).mpr hnkr.2]
    rw [hskipk, bucketNames_append] at ihr
    rw [bucketNames_append]
    show List.Perm (bucketNames (orderedOut rest ds1)
        ++ (sortStrings vs ++ bucketNames (orderedOut rest ds2)))
      (vs ++ bucketNames rest)
    have step1 : List.Perm
        (bucketNames (orderedOut rest ds1) ++ (sortStrings vs ++ bucketNames (orderedOut rest ds2)))
        (sortStrings vs ++ (bucketNames (orderedOut rest ds1) ++ bucketNames (orderedOut rest ds2))) := by
      rw [← List.append_assoc, ← List.append_assoc]
      exact (List.perm_append_comm).append_right _
    have step2 : List.Perm
        (sortStrings vs ++ (bucketNames (orderedOut rest ds1) ++ bucketNames (orderedOut rest ds2)))
        (vs ++ bucketNames rest) :=
      List.Perm.append (sortStrings_perm vs) ihr
    exact step1.trans step2

/-- C1: the names appearing in the `get_upcoming_birthdays` report are
exactly (as a multiset) the names of the stored records with a birthday
whose occurrence — this year's occurrence, rolled to next year when it
strictly precedes today — lies in the closed window
`today <= X <= today + 7 days`. -/
theorem upcoming_report_names_exactly_window (today : PyDate) (book : Book)
    (report : List (String × List String))
    (hvalid : isValidDate today = true)
    (hok : get_upcoming_birthdays today book = .ok report) :
    List.Perm (bucketNames report) (windowNames today book) := by
  unfold get_upcoming_birthdays at hok
  cases hc : collect today book [] with
  | error e => rw [hc] at hok; cases hok
  | ok bkt =>
    rw [hc] at hok
    cases hok
    obtain ⟨hperm, hnd, hne, hcov⟩ := collect_ok_props today book [] bkt hc
    have hnd0 : (bucketKeys ([] : Bucket)).Nodup := List.nodup_nil
    have hsub : ∀ k ∈ bucketKeys bkt, k ∈ sevenNames today := by
      intro k hk
      rcases hcov k hk with hfalse | ⟨w, hw, rfl⟩
      · cases hfalse
      · exact dayName_mem_sevenNames today hvalid w hw
    have hmain := orderedOut_names_perm bkt (sevenNames today)
      (sevenNames_nodup today hvalid) (hnd hnd0) hsub
    have hempty : bucketNames ([] : Bucket) ++ windowNames today book
        = windowNames today book := rfl
    rw [hempty] at hperm
    exact hmain.trans hperm

theorem upcoming_report_names_exactly_window_witness :
    List.Perm (bucketNames [("Monday", ["Alice"])])
      (windowNames ⟨1999, 12, 27⟩ [⟨"Alice", [], some ⟨1990, 1, 1⟩⟩]) :=
  upcoming_report_names_exactly_window ⟨1999, 12, 27⟩ [⟨"Alice", [], some ⟨1990, 1, 1⟩⟩]
    [("Monday", ["Alice"])] (by decide) rfl

theorem orderedOut_fst_sublist (bkt : Bucket) (ds : List String) :
    ((orderedOut bkt ds).map Prod.fst).Sublist ds := by
  induction ds with
  | nil => simp [orderedOut]
  | cons d ds ih =>
    simp only [orderedOut]
    cases bucketLookup bkt d with
    | none => exact ih.cons d
    | some ns => simpa using ih.cons₂ d

theorem orderedOut_mem_shape (bkt : Bucket) (ds : List String) (e : String × List String)
    (h : e ∈ orderedOut bkt ds) :
    ∃ ns, bucketLookup bkt e.1 = some ns ∧ e.2 = sortStrings ns := by
  induction ds with
  | nil => cases h
  | cons d ds ih =>
    simp only [orderedOut] at h
    cases hl : bucketLookup bkt d with
    | none =>
      rw [hl] at h
      exact ih h
    | some ns =>
      rw [hl] at h
      rcases List.mem_cons.mp h with rfl | h2
      · exact ⟨ns, by simpa using hl, rfl⟩
      · exact ih h2

/-- C5: the report contains at most one entry per weekday name, the entries
appear as a subsequence of the seven weekday names iterated from today's
weekday (so exactly in that iteration order, emitting only non-empty
buckets), and the names inside each entry are sorted ascending in the
case-sensitive code-point order, never left in insertion order. -/
theorem report_day_order_and_sorted (today : PyDate) (book : Book)
    (report : List (String × List String))
    (hvalid : isValidDate today = true)
    (hok : get_upcoming_birthdays today book = .ok report) :
    (report.map Prod.fst).Sublist (sevenNames today)
    ∧ (report.map Prod.fst).Nodup
    ∧ ∀ e ∈ report, List.Sorted (· ≤ ·) e.2 ∧ e.2 ≠ [] := by
  unfold get_upcoming_birthdays at hok
  cases hc : collect today book [] with
  | error e => rw [hc] at hok; cases hok
  | ok bkt =>
    rw [hc] at hok
    cases hok
    obtain ⟨hperm, hnd, hne, hcov⟩ := collect_ok_props today book [] bkt hc
    refine ⟨orderedOut_fst_sublist bkt (sevenNames today), ?_, ?_⟩
    · exact (sevenNames_nodup today hvalid).sublist (orderedOut_fst_sublist bkt (sevenNames today))
    · intro e he
      obtain ⟨ns, hlk, hes⟩ := orderedOut_mem_shape bkt (sevenNames today) e he
      refine ⟨hes ▸ sortStrings_sorted ns, ?_⟩
      rw [hes]
      have hmem := bucketLookup_mem bkt e.1 ns hlk
      have hnn : ns ≠ [] := hne (fun p hp => absurd hp (List.not_mem_nil p)) (e.1, ns) hmem
      intro hnil
      apply hnn
      have hp := sortStrings_perm ns
      rw [hnil] at hp
      exact hp.symm.eq_nil

theorem report_day_order_and_sorted_witness :
    (([("Tuesday", ["Alice", "Bob"])].map Prod.fst).Sublist (sevenNames ⟨2026, 10, 12⟩))
    ∧ (([("Tuesday", ["Alice", "Bob"])].map Prod.fst).Nodup)
    ∧ ∀ e ∈ [("Tuesday", ["Alice", "Bob"])], List.Sorted (· ≤ ·) e.2 ∧ e.2 ≠ [] :=
  report_day_order_and_sorted ⟨2026, 10, 12⟩
    [⟨"Bob", [], some ⟨1990, 10, 13⟩⟩, ⟨"Alice", [], some ⟨1980, 10, 13⟩⟩]
    [("Tuesday", ["Alice", "Bob"])] (by decide) (by rfl)

theorem orderedOut_singleton (k : String) (vs : List String) (ds : List String)
    (hnd : ds.Nodup) (hmem : k ∈ ds) :
    orderedOut [(k, vs)] ds = [(k, sortStrings vs)] := by
  induction ds with
  | nil => cases hmem
  | cons d ds ih =>
    rcases List.mem_cons.mp hmem with rfl | hm
    · have hskip : orderedOut [(k, vs)] ds = orderedOut [] ds :=
        orderedOut_skip_head k vs [] ds
          (fun x hx => by rintro rfl; exact (List.nodup_cons.mp hnd).1 hx)
      simp only [orderedOut, bucketLookup]
      rw [hskip, orderedOut_nil_bucket]
      simp
    · have hdk : ¬(k = d) := by
        rintro rfl
        exact (List.nodup_cons.mp hnd).1 hm
      simp only [orderedOut, bucketLookup, if_neg hdk]
      exact ih (List.nodup_cons.mp hnd).2 hm

/-- C2: an in-window occurrence falling on Saturday is bucketed under the
weekday two days later and one falling on Sunday under the weekday one day
later — in both cases "Monday" — and the stored birthday is not modified
(the `birthdays` handler returns the book unchanged).  In particular a
single record whose occurrence lands on a Saturday inside the window is
reported under "Monday", not "Saturday". -/
theorem weekend_shift_to_monday (today : PyDate) (r : Record) (b : PyDate)
    (report : List (String × List String))
    (hvalid : isValidDate today = true)
    (hb : r.birthday = some b)
    (hok : get_upcoming_birthdays today [r] = .ok report)
    (hwin : specInWindow today b = true) :
    ((weekday (specOccurrence today b) = 5 → report = [("Monday", [r.name])])
      ∧ (weekday (specOccurrence today b) = 6 → report = [("Monday", [r.name])]))
    ∧ (birthdays today [] [r]).2 = [r] := by
  constructor
  · unfold get_upcoming_birthdays at hok
    cases hc : collect today [r] [] with
    | error e => rw [hc] at hok; cases hok
    | ok bkt =>
      rw [hc] at hok
      cases hok
      unfold collect at hc
      cases hstep : recordStep today [] r with
      | error e => rw [hstep] at hc; cases hc
      | ok bktm =>
        rw [hstep] at hc
        have hbb : bktm = bkt := by
          have hc2 : Except.ok bktm = Except.ok bkt := hc
          injection hc2
        subst hbb
        rcases recordStep_ok_cases today [] r bktm hstep with ⟨heq, hskip⟩ | ⟨b2, hb2, hwt, hvo, heq⟩
        · exfalso
          rcases hskip with hnone | ⟨b2, hb2, hbf⟩
          · rw [hb] at hnone; cases hnone
          · rw [hb] at hb2
            injection hb2 with hbe
            subst hbe
            rw [hwin] at hbf
            cases hbf
        · rw [hb] at hb2
          injection hb2 with hbe
          subst hbe
          subst heq
          constructor
          · intro hsat
            have hcn : congratsName today b = "Monday" := by
              unfold congratsName shiftWeekend
              rw [hsat]
              rw [if_pos (by decide)]
              rw [(addDays_valid_weekday 2 (specOccurrence today b) hvo).2, hsat]
              rfl
            rw [hcn]
            rw [show bucketAdd [] "Monday" r.name = [("Monday", [r.name])] from rfl]
            rw [orderedOut_singleton "Monday" [r.name] (sevenNames today)
              (sevenNames_nodup today hvalid) (dayName_mem_sevenNames today hvalid 0 (by omega))]
            rfl
          · intro hsun
            have hcn : congratsName today b = "Monday" := by
              unfold congratsName shiftWeekend
              rw [hsun]
              rw [if_neg (by decide), if_pos (by decide)]
              rw [(addDays_valid_weekday 1 (specOccurrence today b) hvo).2, hsun]
              rfl
            rw [hcn]
            rw [show bucketAdd [] "Monday" r.name = [("Monday", [r.name])] from rfl]
            rw [orderedOut_singleton "Monday" [r.name] (sevenNames today)
              (sevenNames_nodup today hvalid) (dayName_mem_sevenNames today hvalid 0 (by omega))]
            rfl
  · rw [birthdays, runHandler_snd]
    cases hg : get_upcoming_birthdays today [r] with
    | error e => simp [birthdays_raw, hg]
    | ok l => cases l <;> simp [birthdays_raw, hg]

theorem weekend_shift_to_monday_witness :
    ((weekday (specOccurrence ⟨1999, 12, 27⟩ ⟨1990, 1, 1⟩) = 5 →
        [("Monday", ["Alice"])] = [("Monday", ["Alice"])])
      ∧ (weekday (specOccurrence ⟨1999, 12, 27⟩ ⟨1990, 1, 1⟩) = 6 →
        [("Monday", ["Alice"])] = [("Monday", ["Alice"])]))
    ∧ (birthdays ⟨1999, 12, 27⟩ [] [⟨"Alice", [], some ⟨1990, 1, 1⟩⟩]).2
        = [⟨"Alice", [], some ⟨1990, 1, 1⟩⟩] :=
  weekend_shift_to_monday ⟨1999, 12, 27⟩ ⟨"Alice", [], some ⟨1990, 1, 1⟩⟩ ⟨1990, 1, 1⟩
    [("Monday", ["Alice"])] (by decide) rfl (by rfl) (by decide)

/-! ## Leap-day failure analysis -/

theorem daysInMonth_ne_two_eq (y y2 m : Nat) (h : ¬(m = 2)) :
    daysInMonth y m = daysInMonth y2 m := by
  unfold daysInMonth
  rw [if_neg h, if_neg h]

theorem recordStep_ok_of_not_feb29 (today : PyDate) (bkt : Bucket) (r : Record)
    (hy : 1 ≤ today.year) (hy2 : today.year + 1 ≤ 9999)
    (hval : ∀ b, r.birthday = some b → isValidDate b = true)
    (hnf : ∀ b, r.birthday = some b → ¬(b.month = 2 ∧ b.day = 29)) :
    ∃ bkt2, recordStep today bkt r = .ok bkt2 := by
  unfold recordStep
  cases hb : r.birthday with
  | none => exact ⟨bkt, rfl⟩
  | some b =>
    dsimp only
    have hv := hval b hb
    simp only [isValidDate, Bool.and_eq_true, decide_eq_true_eq] at hv
    obtain ⟨⟨⟨⟨hby, hbm1⟩, hbm2⟩, hbd1⟩, hbd2⟩ := hv
    have hdim : ∀ y2, b.day ≤ daysInMonth y2 b.month := by
      intro y2
      by_cases hm2 : b.month = 2
      · have h28 : b.day ≤ 28 := by
          have hne : ¬(b.day = 29) := fun hc => hnf b hb ⟨hm2, hc⟩
          have hdd : daysInMonth b.year b.month ≤ 29 := by
            rw [hm2]
            unfold daysInMonth
            rw [if_pos rfl]
            split <;> omega
          omega
        have hge : 28 ≤ daysInMonth y2 b.month := (daysInMonth_bounds y2 b.month hbm1 hbm2).1
        omega
      · rw [daysInMonth_ne_two_eq y2 b.year b.month hm2]
        exact hbd2
    have h1 : dateReplaceYear b today.year = .ok ⟨today.year, b.month, b.day⟩ := by
      unfold dateReplaceYear
      rw [if_neg (by omega), if_neg (by omega),
        if_neg (by have := hdim today.year; omega)]
    rw [h1]
    dsimp only
    by_cases hroll : dateLt ⟨today.year, b.month, b.day⟩ today = true
    · rw [if_pos hroll]
      have h2 : dateReplaceYear b (today.year + 1) = .ok ⟨today.year + 1, b.month, b.day⟩ := by
        unfold dateReplaceYear
        rw [if_neg (by omega), if_neg (by omega),
          if_neg (by have := hdim (today.year + 1); omega)]
      rw [h2]
      dsimp only
      by_cases hw : (dateLe today ⟨today.year + 1, b.month, b.day⟩
          && dateLe ⟨today.year + 1, b.month, b.day⟩ (addDays 7 today)) = true
      · rw [if_pos hw]
        exact ⟨_, rfl⟩
      · rw [if_neg hw]
        exact ⟨_, rfl⟩
    · rw [if_neg hroll]
      dsimp only
      by_cases hw : (dateLe today ⟨today.year, b.month, b.day⟩
          && dateLe ⟨today.year, b.month, b.day⟩ (addDays 7 today)) = true
      · rw [if_pos hw]
        exact ⟨_, rfl⟩
      · rw [if_neg hw]
        exact ⟨_, rfl⟩

theorem recordStep_feb29_error (today : PyDate) (bkt : Bucket) (r : Record) (b : PyDate)
    (hb : r.birthday = some b) (hm2 : b.month = 2) (hd29 : b.day = 29)
    (hy : 1 ≤ today.year) (hy2 : today.year + 1 ≤ 9999)
    (hcond : isLeap today.year = false ∨ dateLt ⟨today.year, 2, 29⟩ today = true) :
    recordStep today bkt r = .error "day is out of range for month" := by
  unfold recordStep
  rw [hb]
  dsimp only
  by_cases hl : isLeap today.year = true
  · have hlt : dateLt ⟨today.year, 2, 29⟩ today = true := by
      rcases hcond with hc | hc
      · rw [hl] at hc
        cases hc
      · exact hc
    have hdim2 : daysInMonth today.year 2 = 29 := by
      unfold daysInMonth
      rw [if_pos rfl, if_pos hl]
    have h1 : dateReplaceYear b today.year = .ok ⟨today.year, b.month, b.day⟩ := by
      unfold dateReplaceYear
      rw [if_neg (by omega), if_neg (by omega),
        if_neg (by rw [hm2, hd29, hdim2]; omega)]
    rw [h1]
    dsimp only
    have hroll : dateLt ⟨today.year, b.month, b.day⟩ today = true := by
      rw [hm2, hd29]
      exact hlt
    rw [if_pos hroll]
    have hnl : isLeap (today.year + 1) = false := isLeap_succ_false today.year hl
    have hdim2b : daysInMonth (today.year + 1) 2 = 28 := by
      unfold daysInMonth
      rw [if_pos rfl, if_neg (by simp [hnl])]
    have h2 : dateReplaceYear b (today.year + 1) = .error "day is out of range for month" := by
      unfold dateReplaceYear
      rw [if_neg (by omega), if_neg (by omega),
        if_pos (by rw [hm2, hd29, hdim2b]; omega)]
    rw [h2]
  · have hlf : isLeap today.year = false := by
      cases hx : isLeap today.year
      · rfl
      · exact absurd hx hl
    have hdim2 : daysInMonth today.year 2 = 28 := by
      unfold daysInMonth
      rw [if_pos rfl, if_neg (by simp [hlf])]
    have h1 : dateReplaceYear b today.year = .error "day is out of range for month" := by
      unfold dateReplaceYear
      rw [if_neg (by omega), if_neg (by omega),
        if_pos (by rw [hm2, hd29, hdim2]; omega)]
    rw [h1]

theorem collect_feb29_error (today : PyDate)
    (hy : 1 ≤ today.year) (hy2 : today.year + 1 ≤ 9999)
    (hcond : isLeap today.year = false ∨ dateLt ⟨today.year, 2, 29⟩ today = true) :
    ∀ (recs : List Record) (bkt : Bucket),
      (∀ r ∈ recs, ∀ b, r.birthday = some b → isValidDate b = true) →
      (∃ r ∈ recs, ∃ b, r.birthday = some b ∧ b.month = 2 ∧ b.day = 29) →
      collect today recs bkt = .error "day is out of range for month" := by
  intro recs
  induction recs with
  | nil =>
    intro bkt _ hex
    rcases hex with ⟨r, hr, _⟩
    cases hr
  | cons r rs ih =>
    intro bkt hval hex
    by_cases hf : ∃ b, r.birthday = some b ∧ b.month = 2 ∧ b.day = 29
    · obtain ⟨b, hb, hm2, hd29⟩ := hf
      unfold collect
      rw [recordStep_feb29_error today bkt r b hb hm2 hd29 hy hy2 hcond]
    · have hex2 : ∃ r2 ∈ rs, ∃ b, r2.birthday = some b ∧ b.month = 2 ∧ b.day = 29 := by
        rcases hex with ⟨r2, hr2, hbb⟩
        rcases List.mem_cons.mp hr2 with rfl | hm
        · exact absurd hbb hf
        · exact ⟨r2, hm, hbb⟩
      obtain ⟨bkt2, hstep⟩ := recordStep_ok_of_not_feb29 today bkt r hy hy2
        (fun b hbb => hval r (List.mem_cons_self _ _) b hbb)
        (fun b hbb hc => hf ⟨b, hbb, hc⟩)
      unfold collect
      rw [hstep]
      exact ih bkt2 (fun r2 hr2 => hval r2 (List.mem_cons_of_mem _ hr2)) hex2

/-- C10: with a stored February 29 birthday and a non-leap target year
(either today's year is not leap, or this year's February 29 has already
passed so the roll targets the non-leap following year), the `birthdays`
handler returns the date-replacement `ValueError` message
"day is out of range for month" instead of a report, does not raise, and
leaves the book unchanged. -/
theorem feb29_nonleap_error_message (today : PyDate) (book : Book) (args : List String)
    (hy : 1 ≤ today.year) (hy2 : today.year + 1 ≤ 9999)
    (hval : ∀ r ∈ book, r.birthday.all isValidDate = true)
    (hfeb : ∃ r ∈ book, ∃ b, r.birthday = some b ∧ b.month = 2 ∧ b.day = 29)
    (hcond : isLeap today.year = false ∨ dateLt ⟨today.year, 2, 29⟩ today = true) :
    birthdays today args book = ("day is out of range for month", book) := by
  have hval2 : ∀ r ∈ book, ∀ b, r.birthday = some b → isValidDate b = true := by
    intro r hr b hb
    have hh := hval r hr
    rw [hb] at hh
    simpa [Option.all] using hh
  have hc := collect_feb29_error today hy hy2 hcond book [] hval2 hfeb
  have hg : get_upcoming_birthdays today book = .error "day is out of range for month" := by
    unfold get_upcoming_birthdays
    rw [hc]
  rw [birthdays]
  unfold birthdays_raw
  rw [hg]
  rfl

theorem feb29_nonleap_error_message_witness :
    birthdays ⟨2023, 1, 1⟩ [] [⟨"Carl", [], some ⟨2000, 2, 29⟩⟩]
      = ("day is out of range for month", [⟨"Carl", [], some ⟨2000, 2, 29⟩⟩]) :=
  feb29_nonleap_error_message ⟨2023, 1, 1⟩ [⟨"Carl", [], some ⟨2000, 2, 29⟩⟩] []
    (by decide) (by decide) (by decide)
    ⟨⟨"Carl", [], some ⟨2000, 2, 29⟩⟩, List.mem_cons_self _ _, ⟨2000, 2, 29⟩, rfl, rfl, rfl⟩
    (Or.inl (by decide))

/-! ## Birthday parsing and rendering analysis -/

theorem splitDots_ne_nil (cs : List Char) : splitDots cs ≠ [] := by
  cases cs with
  | nil => simp [splitDots]
  | cons c rest =>
    unfold splitDots
    by_cases h : c = '.'
    · rw [if_pos h]
      simp
    · rw [if_neg h]
      cases splitDots rest <;> simp

theorem splitDots_join (cs : List Char) : joinDots (splitDots cs) = cs := by
  induction cs with
  | nil => rfl
  | cons c rest ih =>
    unfold splitDots
    by_cases h : c = '.'
    · rw [if_pos h]
      subst h
      cases hsp : splitDots rest with
      | nil => exact absurd hsp (splitDots_ne_nil rest)
      | cons g gs =>
        rw [hsp] at ih
        show joinDots ([] :: g :: gs) = '.' :: rest
        unfold joinDots
        rw [show joinDots (g :: gs) = rest from ih]
        rfl
    · rw [if_neg h]
      cases hsp : splitDots rest with
      | nil => exact absurd hsp (splitDots_ne_nil rest)
      | cons g gs =>
        rw [hsp] at ih
        cases gs with
        | nil =>
          show joinDots [c :: g] = c :: rest
          unfold joinDots
          have hg : g = rest := ih
          rw [hg]
        | cons g2 gs2 =>
          show joinDots ((c :: g) :: g2 :: gs2) = c :: rest
          unfold joinDots at ih ⊢
          simp only [List.cons_append]
          rw [show (g ++ '.' :: joinDots (g2 :: gs2)) = rest from ih]

theorem isDigit_toNat_bounds (c : Char) (h : c.isDigit = true) :
    48 ≤ c.toNat ∧ c.toNat ≤ 57 := by
  simp only [Char.isDigit, Bool.and_eq_true, decide_eq_true_eq] at h
  exact ⟨h.1, h.2⟩

theorem digitChar_of_isDigit (c : Char) (h : c.isDigit = true) :
    Nat.digitChar (c.toNat - 48) = c := by
  obtain ⟨hb1, hb2⟩ := isDigit_toNat_bounds c h
  obtain ⟨v, hv⟩ : ∃ v, v = c.toNat := ⟨c.toNat, rfl⟩
  rw [← hv] at hb1 hb2
  conv_rhs => rw [← Char.ofNat_toNat c]
  rw [← hv]
  interval_cases v <;> rfl

theorem renderNatAux_step (f n : Nat) : renderNatAux (f + 1) n
    = if n < 10 then [Nat.digitChar n]
      else renderNatAux f (n / 10) ++ [Nat.digitChar (n % 10)] := rfl

theorem renderNat_two_digits (n : Nat) (h1 : 10 ≤ n) (h2 : n ≤ 99) :
    renderNat n = [Nat.digitChar (n / 10), Nat.digitChar (n % 10)] := by
  unfold renderNat
  rw [show (10 : Nat) = 9 + 1 from rfl, renderNatAux_step, if_neg (by omega)]
  rw [show (9 : Nat) = 8 + 1 from rfl, renderNatAux_step, if_pos (by omega)]
  rfl

theorem renderNat_four_digits (n : Nat) (h1 : 1000 ≤ n) (h2 : n ≤ 9999) :
    renderNat n = [Nat.digitChar (n / 1000), Nat.digitChar (n / 100 % 10),
      Nat.digitChar (n / 10 % 10), Nat.digitChar (n % 10)] := by
  have hd3 : n / 10 / 10 = n / 100 := by
    rw [Nat.div_div_eq_div_mul]
  have hd4 : n / 100 / 10 = n / 1000 := by
    rw [Nat.div_div_eq_div_mul]
  unfold renderNat
  rw [show (10 : Nat) = 9 + 1 from rfl, renderNatAux_step, if_neg (by omega)]
  rw [show (9 : Nat) = 8 + 1 from rfl, renderNatAux_step, if_neg (by omega)]
  rw [hd3]
  rw [show (8 : Nat) = 7 + 1 from rfl, renderNatAux_step, if_neg (by omega)]
  rw [hd4]
  rw [show (7 : Nat) = 6 + 1 from rfl, renderNatAux_step, if_pos (by omega)]
  simp

theorem digitsVal_two (c1 c2 : Char) :
    digitsVal [c1, c2] = 10 * (c1.toNat - 48) + (c2.toNat - 48) := by
  unfold digitsVal
  simp [List.foldl]

theorem digitsVal_four (c1 c2 c3 c4 : Char) :
    digitsVal [c1, c2, c3, c4] = 1000 * (c1.toNat - 48) + 100 * (c2.toNat - 48)
      + 10 * (c3.toNat - 48) + (c4.toNat - 48) := by
  unfold digitsVal
  simp [List.foldl]
  ring

theorem pad2chars_two_digit_chars (c1 c2 : Char)
    (h1 : c1.isDigit = true) (h2 : c2.isDigit = true) :
    pad2chars (digitsVal [c1, c2]) = [c1, c2] := by
  obtain ⟨ha1, ha2⟩ := isDigit_toNat_bounds c1 h1
  obtain ⟨hb1, hb2⟩ := isDigit_toNat_bounds c2 h2
  rw [digitsVal_two]
  unfold pad2chars
  by_cases hlt : 10 * (c1.toNat - 48) + (c2.toNat - 48) < 10
  · rw [if_pos hlt]
    have hc1 : c1.toNat - 48 = 0 := by omega
    have hc10 : c1 = '0' := by
      have hdd := digitChar_of_isDigit c1 h1
      rw [hc1] at hdd
      exact hdd.symm
    have he : 10 * (c1.toNat - 48) + (c2.toNat - 48) = c2.toNat - 48 := by omega
    rw [he, digitChar_of_isDigit c2 h2, hc10]
  · rw [if_neg hlt]
    rw [renderNat_two_digits _ (by omega) (by omega)]
    have he1 : (10 * (c1.toNat - 48) + (c2.toNat - 48)) / 10 = c1.toNat - 48 := by omega
    have he2 : (10 * (c1.toNat - 48) + (c2.toNat - 48)) % 10 = c2.toNat - 48 := by omega
    rw [he1, he2, digitChar_of_isDigit c1 h1, digitChar_of_isDigit c2 h2]

theorem renderNat_four_digit_chars (c1 c2 c3 c4 : Char)
    (h1 : c1.isDigit = true) (h2 : c2.isDigit = true)
    (h3 : c3.isDigit = true) (h4 : c4.isDigit = true)
    (hbig : 1000 ≤ digitsVal [c1, c2, c3, c4]) :
    renderNat (digitsVal [c1, c2, c3, c4]) = [c1, c2, c3, c4] := by
  obtain ⟨ha1, ha2⟩ := isDigit_toNat_bounds c1 h1
  obtain ⟨hb1, hb2⟩ := isDigit_toNat_bounds c2 h2
  obtain ⟨hc1, hc2⟩ := isDigit_toNat_bounds c3 h3
  obtain ⟨hd1, hd2⟩ := isDigit_toNat_bounds c4 h4
  rw [digitsVal_four] at hbig ⊢
  rw [renderNat_four_digits _ (by omega) (by omega)]
  have he1 : (1000 * (c1.toNat - 48) + 100 * (c2.toNat - 48) + 10 * (c3.toNat - 48)
      + (c4.toNat - 48)) / 1000 = c1.toNat - 48 := by omega
  have he2 : (1000 * (c1.toNat - 48) + 100 * (c2.toNat - 48) + 10 * (c3.toNat - 48)
      + (c4.toNat - 48)) / 100 % 10 = c2.toNat - 48 := by omega
  have he3 : (1000 * (c1.toNat - 48) + 100 * (c2.toNat - 48) + 10 * (c3.toNat - 48)
      + (c4.toNat - 48)) / 10 % 10 = c3.toNat - 48 := by omega
  have he4 : (1000 * (c1.toNat - 48) + 100 * (c2.toNat - 48) + 10 * (c3.toNat - 48)
      + (c4.toNat - 48)) % 10 = c4.toNat - 48 := by omega
  rw [he1, he2, he3, he4, digitChar_of_isDigit c1 h1, digitChar_of_isDigit c2 h2,
    digitChar_of_isDigit c3 h3, digitChar_of_isDigit c4 h4]

theorem birthdayParse_some_iff (s : String) :
    (∃ d, birthdayParse s = some d) ↔ specLaxDate s = true := by
  unfold birthdayParse specLaxDate
  rcases splitDots s.toList with _ | ⟨d, _ | ⟨m, _ | ⟨y, _ | ⟨e, rest⟩⟩⟩⟩
  · simp
  · simp
  · simp
  · dsimp only
    constructor
    · rintro ⟨dd, hdd⟩
      by_cases hA : (matchDayField d && matchMonthField m && matchYearField y) = true
      · rw [if_pos hA] at hdd
        by_cases hB : (decide (1 ≤ digitsVal y)
            && decide (digitsVal d ≤ daysInMonth (digitsVal y) (digitsVal m))) = true
        · simp only [matchDayField, matchMonthField, matchYearField, allDigits,
            Bool.and_eq_true, Bool.or_eq_true, beq_iff_eq, decide_eq_true_eq] at hA hB
          obtain ⟨⟨⟨⟨⟨hdall, hdlen⟩, hd1⟩, hd31⟩, ⟨⟨hmall, hmlen⟩, hm1⟩, hm12⟩, hyall, hylen⟩ := hA
          obtain ⟨hy1, hdim⟩ := hB
          simp only [allDigits, isValidDate, Bool.and_eq_true, Bool.or_eq_true,
            beq_iff_eq, decide_eq_true_eq]
          exact ⟨⟨⟨⟨⟨⟨hdall, hdlen⟩, hmall⟩, hmlen⟩, hyall⟩, hylen⟩,
            ⟨⟨⟨⟨hy1, hm1⟩, hm12⟩, hd1⟩, hdim⟩⟩
        · rw [if_neg hB] at hdd
          cases hdd
      · rw [if_neg hA] at hdd
        cases hdd
    · intro hR
      simp only [allDigits, isValidDate, Bool.and_eq_true, Bool.or_eq_true,
        beq_iff_eq, decide_eq_true_eq] at hR
      obtain ⟨⟨⟨⟨⟨⟨hdall, hdlen⟩, hmall⟩, hmlen⟩, hyall⟩, hylen⟩,
        ⟨⟨⟨⟨hy1, hm1⟩, hm12⟩, hd1⟩, hdim⟩⟩ := hR
      have hdim31 : daysInMonth (digitsVal y) (digitsVal m) ≤ 31 :=
        (daysInMonth_bounds _ _ hm1 hm12).2
      have hA : (matchDayField d && matchMonthField m && matchYearField y) = true := by
        simp only [matchDayField, matchMonthField, matchYearField, allDigits,
          Bool.and_eq_true, Bool.or_eq_true, beq_iff_eq, decide_eq_true_eq]
        exact ⟨⟨⟨⟨⟨hdall, hdlen⟩, hd1⟩, by omega⟩, ⟨⟨hmall, hmlen⟩, hm1⟩, hm12⟩,
          hyall, hylen⟩
      rw [if_pos hA]
      have hB : (decide (1 ≤ digitsVal y)
          && decide (digitsVal d ≤ daysInMonth (digitsVal y) (digitsVal m))) = true := by
        simp only [Bool.and_eq_true, decide_eq_true_eq]
        exact ⟨hy1, hdim⟩
      rw [if_pos hB]
      exact ⟨_, rfl⟩
  · simp

/-- C4 as amended: `Birthday` construction succeeds exactly on the strings
of the form day.month.year where day and month have one or two digits,
the year exactly four digits, and the three numbers denote a real calendar
date (so impossible dates such as 31.02.2020 are rejected, but non-padded
forms such as 1.01.2020 are accepted); rendering always emits the
zero-padded `DD.MM.YYYY` form, so for every accepted input that was already
strictly zero-padded — with a year of at least 1000, below which the
unpadded `%Y` year rendering loses the leading zeros — rendering returns
the original string. -/
theorem birthday_lax_accept_and_roundtrip (s : String) :
    ((∃ d, mkBirthday s = .ok d) ↔ specLaxDate s = true)
    ∧ (∀ d, mkBirthday s = .ok d → specStrictDDMMYYYY s = true → 1000 ≤ d.year →
        renderDate d = s) := by
  constructor
  · rw [← birthdayParse_some_iff]
    unfold mkBirthday
    constructor
    · rintro ⟨d, hd⟩
      cases hp : birthdayParse s with
      | none =>
        rw [hp] at hd
        cases hd
      | some dd => exact ⟨dd, rfl⟩
    · rintro ⟨d, hd⟩
      rw [hd]
      exact ⟨d, rfl⟩
  · intro dd hok hstrict hyear
    unfold mkBirthday at hok
    cases hp : birthdayParse s with
    | none =>
      rw [hp] at hok
      cases hok
    | some dd2 =>
      rw [hp] at hok
      have hok2 : Except.ok dd2 = Except.ok dd := hok
      injection hok2 with he
      subst he
      unfold birthdayParse at hp
      unfold specStrictDDMMYYYY at hstrict
      rcases hsp : splitDots s.toList with _ | ⟨d, _ | ⟨m, _ | ⟨y, _ | ⟨e, rest⟩⟩⟩⟩ <;>
        rw [hsp] at hp hstrict <;> dsimp only at hp hstrict
      · cases hstrict
      · cases hstrict
      · cases hstrict
      · split_ifs at hp with hA hB
        injection hp with he2
        subst he2
        simp only [allDigits, isValidDate, Bool.and_eq_true, Bool.or_eq_true,
          beq_iff_eq, decide_eq_true_eq] at hstrict
        obtain ⟨⟨⟨⟨⟨⟨hdall, hdlen⟩, hmall⟩, hmlen⟩, hyall⟩, hylen⟩, hval⟩ := hstrict
        obtain ⟨d1, d2, rfl⟩ := List.length_eq_two.mp hdlen
        obtain ⟨m1, m2, rfl⟩ := List.length_eq_two.mp hmlen
        obtain ⟨y1, yr⟩ : ∃ a t, y = a :: t := by
          cases y with
          | nil => simp at hylen
          | cons a t => exact ⟨a, t, rfl⟩
        obtain ⟨yt, hyt⟩ := yr
        subst hyt
        obtain ⟨y2, y3, y4, hyt2⟩ : ∃ a b c, yt = [a, b, c] := by
          rw [List.length_cons] at hylen
          exact List.length_eq_three.mp (by omega)
        subst hyt2
        simp only [List.all_cons, List.all_nil, Bool.and_eq_true, Bool.and_true] at hdall hmall hyall
        have hjoin : s.toList = [d1, d2] ++ '.' :: ([m1, m2] ++ '.' :: [y1, y2, y3, y4]) := by
          rw [← splitDots_join s.toList, hsp]
          rfl
        have hyearv : 1000 ≤ digitsVal [y1, y2, y3, y4] := hyear
        unfold renderDate
        have hLL : pad2chars (digitsVal [d1, d2]) ++ '.' :: pad2chars (digitsVal [m1, m2])
            ++ '.' :: renderNat (digitsVal [y1, y2, y3, y4]) = s.toList := by
          rw [hjoin]
          rw [pad2chars_two_digit_chars d1 d2 hdall.1 hdall.2]
          rw [pad2chars_two_digit_chars m1 m2 hmall.1 hmall.2]
          rw [renderNat_four_digit_chars y1 y2 y3 y4 hyall.1 hyall.2.1 hyall.2.2.1
            hyall.2.2.2 hyearv]
          simp
        show String.mk (pad2chars (digitsVal [d1, d2]) ++ '.' :: pad2chars (digitsVal [m1, m2])
            ++ '.' :: renderNat (digitsVal [y1, y2, y3, y4])) = s
        rw [hLL]
        rfl
      · cases hstrict

theorem birthday_lax_accept_and_roundtrip_witness :
    renderDate ⟨1990, 6, 15⟩ = "15.06.1990" :=
  (birthday_lax_accept_and_roundtrip "15.06.1990").2 ⟨1990, 6, 15⟩ rfl (by rfl) (by decide)
